import Mathlib

/-!
Verification of the Levenshtein edit-distance engine from `edit_distance.c`
(`page_finder`).  The C function `levenshtein` computes the edit distance
between two NUL-terminated byte strings with a two-row rolling-buffer
dynamic program:

* `x` is initialised to `[0, 1, ..., n2-1]` (`for (i=0;i<n2;++i) x[i]=i`);
* for each `i` from `1` to `n1-1` it sets `y[0] = i` and
  `y[j] = (c1 == s2[j-1]) ? x[j-1] : MIN(x[j]+1, MIN(y[j-1]+1, x[j-1]+1))`
  for `j` from `1` to `n2-1`, then swaps `x` and `y`;
* the returned value is `x[n2 - 1]` after the loop.

`rowStep`, `outerLoop` and `levenshtein_impl` below are the shallow
embedding of that code over `List` values.  `Estep`/`EditSeq` formalise
"single-character insert/delete/substitute operations transforming one
sequence into another", and the main results identify the value computed
by the embedding with the least length of such an operation sequence.
-/

universe u

variable {α : Type u}

/-- Reference recurrence for the Levenshtein distance, recursing on the
heads of the two lists.  This is the mathematical bridge between the
rolling-buffer code and the minimum-edit-script specification. -/
def lev [DecidableEq α] : List α → List α → Nat
  | [], ys => ys.length
  | _ :: xs, [] => xs.length + 1
  | x :: xs, y :: ys =>
      if x = y then lev xs ys
      else 1 + min (lev xs (y :: ys)) (min (lev (x :: xs) ys) (lev xs ys))
termination_by a b => a.length + b.length
decreasing_by all_goals (simp only [List.length_cons]; omega)

/-- Embedding of the inner loop (`for (j=1; j<n2; ++j) ...`) of
`levenshtein` in `edit_distance.c`.  `c` is `c1 = s1[i-1]`, the first
argument is the remaining suffix of `s2`, the second argument is the
suffix `x[j-1], x[j], ..., x[n2-1]` of the previous row, and `left` is
the entry `y[j-1]` computed just before.  At each position the head `d`
of the row suffix is the diagonal entry `x[j-1]` and the next element is
`x[j]`, so the produced cell is
`(c1 == s2[j-1]) ? x[j-1] : MIN(x[j]+1, MIN(y[j-1]+1, x[j-1]+1))`. -/
def rowStep [DecidableEq α] (c : α) : List α → List Nat → Nat → List Nat
  | t :: ts, d :: rest, left =>
      (if c = t then d else min (rest.headD 0 + 1) (min (left + 1) (d + 1))) ::
        rowStep c ts rest (if c = t then d else min (rest.headD 0 + 1) (min (left + 1) (d + 1)))
  | _, _, _ => []

/-- Embedding of the outer loop (`for (i=1; i<n1; ++i) ...`) of
`levenshtein` in `edit_distance.c`.  The first explicit argument is the
remaining suffix of `s1`, `i` is the loop counter, and `x` is the
current previous row; each iteration builds the fresh row
`y = i :: rowStep c s2 x i` (the code sets `y[0] = i` and fills
`y[1..n2-1]` left to right) and the swap `z=x; x=y; y=z` makes it the
previous row of the next iteration. -/
def outerLoop [DecidableEq α] (s2 : List α) : List α → Nat → List Nat → List Nat
  | [], _, x => x
  | c :: cs, i, x => outerLoop s2 cs (i + 1) (i :: rowStep c s2 x i)

/-- Embedding of the C function `levenshtein` on two character sequences:
start from the row `x = [0, 1, ..., len s2]`, run the outer loop over
`s1` with the counter starting at `1`, and read off `x[n2 - 1]`, the
last entry of the final row. -/
def levenshtein_impl [DecidableEq α] (s1 s2 : List α) : Nat :=
  (outerLoop s2 s1 1 (List.range (s2.length + 1))).getD s2.length 0

/-- The row of distances `[lev ra rrb, lev ra (t1 :: rrb), lev ra (t2 :: t1 :: rrb), ...]`
for a fixed reversed prefix `ra` of the first sequence: entry `j` is the
distance from `ra` to the reversal of `rrb` extended by the first `j`
elements of `ts`.  This is the abstract value of the DP rows. -/
def drow [DecidableEq α] (ra : List α) : List α → List α → List Nat
  | rrb, [] => [lev ra rrb]
  | rrb, t :: ts => lev ra rrb :: drow ra (t :: rrb) ts

/-- A single edit operation on a sequence: insert, delete or substitute
one character at an arbitrary position. -/
inductive Estep : List α → List α → Prop where
  | ins (l r : List α) (c : α) : Estep (l ++ r) (l ++ c :: r)
  | del (l r : List α) (c : α) : Estep (l ++ c :: r) (l ++ r)
  | sub (l r : List α) (c d : α) : Estep (l ++ c :: r) (l ++ d :: r)

/-- The relation `EditSeq n a b` holds when `a` can be transformed into `b` by a
sequence of exactly `n` single-character edit operations. -/
inductive EditSeq : Nat → List α → List α → Prop where
  | refl (a : List α) : EditSeq 0 a a
  | step {n : Nat} {a b c : List α} : Estep a b → EditSeq n b c → EditSeq (n + 1) a c

/-- The row held in `x` after `i` iterations of the outer loop of
`levenshtein` on inputs `a` and `b` (for `i = 0`, the initial row). -/
def rowAfter [DecidableEq α] (a b : List α) (i : Nat) : List Nat :=
  outerLoop b (a.take i) 1 (List.range (b.length + 1))

/-- Modelled from the spec: the full-table Levenshtein recurrence,
`D 0 j = j`, `D i 0 = i`, and `D i j` obtained from `D (i-1) (j-1)`,
`D (i-1) j`, `D i (j-1)` by the match/mismatch rule on `s1[i-1]` and
`s2[j-1]`.  Used to state that the rolling two-row computation refines
the full table. -/
def levTable [DecidableEq α] [Inhabited α] (s1 s2 : List α) : Nat → Nat → Nat
  | 0, j => j
  | i + 1, 0 => i + 1
  | i + 1, j + 1 =>
      if s1.getD i default = s2.getD j default then levTable s1 s2 i j
      else 1 + min (levTable s1 s2 i (j + 1))
              (min (levTable s1 s2 (i + 1) j) (levTable s1 s2 i j))
termination_by i j => i + j
decreasing_by all_goals omega

/-- The initial segment of a byte sequence before the first NUL byte:
the bytes a C string actually denotes (`strlen` semantics). -/
def cstring (s : List Nat) : List Nat := s.takeWhile (fun b => b != 0)

/-- The `strlen` of a byte sequence: the number of bytes before the first NUL. -/
def strlen (s : List Nat) : Nat := (cstring s).length

/-- The C entry point on raw byte sequences: `strlen` fixes the extent of
each argument, so the engine runs on the prefixes before the first NUL. -/
def levenshtein_c (s1 s2 : List Nat) : Nat :=
  levenshtein_impl (cstring s1) (cstring s2)

theorem lev_nil_right [DecidableEq α] (a : List α) : lev a [] = a.length := by
  cases a <;> simp [lev]

theorem lev_nil_left [DecidableEq α] (b : List α) : lev [] b = b.length := by
  cases b <;> simp [lev]

theorem lev_cons_cons [DecidableEq α] (x y : α) (xs ys : List α) :
    lev (x :: xs) (y :: ys) =
      if x = y then lev xs ys
      else 1 + min (lev xs (y :: ys)) (min (lev (x :: xs) ys) (lev xs ys)) := by
  rw [lev]

theorem lev_self [DecidableEq α] (a : List α) : lev a a = 0 := by
  induction a with
  | nil => simp [lev]
  | cons x xs ih => rw [lev_cons_cons, if_pos rfl, ih]

theorem editSeq_of_eq {n m : Nat} {a b : List α} (h : EditSeq n a b) (e : n = m) :
    EditSeq m a b := e ▸ h

theorem EditSeq.trans {n m : Nat} {a b c : List α} (h1 : EditSeq n a b)
    (h2 : EditSeq m b c) : EditSeq (n + m) a c := by
  induction h1 with
  | refl a => simpa using h2
  | step e _tail ih => exact editSeq_of_eq (EditSeq.step e (ih h2)) (by omega)

theorem Estep.cons_map (x : α) {a b : List α} (h : Estep a b) : Estep (x :: a) (x :: b) := by
  cases h with
  | ins l r c => exact Estep.ins (x :: l) r c
  | del l r c => exact Estep.del (x :: l) r c
  | sub l r c d => exact Estep.sub (x :: l) r c d

theorem EditSeq.cons (x : α) {n : Nat} {a b : List α} (h : EditSeq n a b) :
    EditSeq n (x :: a) (x :: b) := by
  induction h with
  | refl a => exact .refl _
  | step e _tail ih => exact .step (e.cons_map x) ih

theorem EditSeq.snoc {n : Nat} {a b c : List α} (h : EditSeq n a b) (e : Estep b c) :
    EditSeq (n + 1) a c :=
  h.trans (EditSeq.step e (EditSeq.refl c))

theorem editSeq_nil_left (b : List α) : EditSeq b.length [] b := by
  induction b with
  | nil => exact .refl _
  | cons y ys ih => exact .step (show Estep [] [y] from Estep.ins [] [] y) (ih.cons y)

theorem editSeq_nil_right (a : List α) : EditSeq a.length a [] := by
  induction a with
  | nil => exact .refl _
  | cons x xs ih => exact .step (show Estep (x :: xs) xs from Estep.del [] xs x) ih

theorem Estep.inv {a b : List α} (h : Estep a b) : Estep b a := by
  cases h with
  | ins l r c => exact Estep.del l r c
  | del l r c => exact Estep.ins l r c
  | sub l r c d => exact Estep.sub l r d c

theorem EditSeq.symm {n : Nat} {a b : List α} (h : EditSeq n a b) : EditSeq n b a := by
  induction h with
  | refl a => exact .refl _
  | step e _tail ih => exact ih.snoc e.inv

theorem Estep.reverse {a b : List α} (h : Estep a b) : Estep a.reverse b.reverse := by
  cases h with
  | ins l r c => simpa using Estep.ins r.reverse l.reverse c
  | del l r c => simpa using Estep.del r.reverse l.reverse c
  | sub l r c d => simpa using Estep.sub r.reverse l.reverse c d

theorem EditSeq.rev {n : Nat} {a b : List α} (h : EditSeq n a b) :
    EditSeq n a.reverse b.reverse := by
  induction h with
  | refl a => exact .refl _
  | step e _tail ih => exact .step e.reverse ih

theorem editSeq_lev [DecidableEq α] (a b : List α) : EditSeq (lev a b) a b := by
  induction a, b using lev.induct with
  | case1 ys => simpa [lev_nil_left] using editSeq_nil_left ys
  | case2 x xs => simpa [lev_nil_right] using editSeq_nil_right (x :: xs)
  | case3 xs y ys ih =>
      rw [lev_cons_cons, if_pos rfl]
      exact ih.cons y
  | case4 x xs y ys h ih1 ih2 ih3 =>
      rw [lev_cons_cons, if_neg h]
      have hmin : min (lev xs (y :: ys)) (min (lev (x :: xs) ys) (lev xs ys)) =
            lev xs (y :: ys) ∨
          min (lev xs (y :: ys)) (min (lev (x :: xs) ys) (lev xs ys)) =
            lev (x :: xs) ys ∨
          min (lev xs (y :: ys)) (min (lev (x :: xs) ys) (lev xs ys)) = lev xs ys := by
        omega
      rcases hmin with hm | hm | hm <;> rw [hm]
      · exact editSeq_of_eq (EditSeq.step (show Estep (x :: xs) xs from Estep.del [] xs x) ih1)
          (by omega)
      · exact editSeq_of_eq (ih2.snoc (show Estep ys (y :: ys) from Estep.ins [] ys y))
          (by omega)
      · exact editSeq_of_eq
          (EditSeq.step (show Estep (x :: xs) (y :: xs) from Estep.sub [] xs x y) (ih3.cons y))
          (by omega)

theorem lev_adj_bounds [DecidableEq α] :
    ∀ (n : Nat) (u v : List α), u.length + v.length ≤ n →
      (∀ x : α, lev (x :: u) v ≤ 1 + lev u v) ∧
      (∀ x : α, lev u v ≤ 1 + lev (x :: u) v) ∧
      (∀ z : α, lev u (z :: v) ≤ 1 + lev u v) ∧
      (∀ z : α, lev u v ≤ 1 + lev u (z :: v)) := by
  intro n
  induction n with
  | zero =>
      intro u v h
      have hu : u = [] := List.eq_nil_of_length_eq_zero (by omega)
      have hv : v = [] := List.eq_nil_of_length_eq_zero (by omega)
      subst hu; subst hv
      refine ⟨?_, ?_, ?_, ?_⟩ <;> intro w <;> simp [lev]
  | succ n ih =>
      intro u v h
      have A1 : ∀ x : α, lev (x :: u) v ≤ 1 + lev u v := by
        intro x
        cases v with
        | nil =>
            rw [lev_nil_right, lev_nil_right]
            simp only [List.length_cons]
            omega
        | cons z vv =>
            by_cases hxz : x = z
            · subst hxz
              rw [lev_cons_cons, if_pos rfl]
              exact (ih u vv (by simp only [List.length_cons] at h; omega)).2.2.2 x
            · rw [lev_cons_cons, if_neg hxz]
              omega
      have A2 : ∀ x : α, lev u v ≤ 1 + lev (x :: u) v := by
        intro x
        cases v with
        | nil =>
            rw [lev_nil_right, lev_nil_right]
            simp only [List.length_cons]
            omega
        | cons z vv =>
            have hlen : u.length + vv.length ≤ n := by
              simp only [List.length_cons] at h; omega
            by_cases hxz : x = z
            · subst hxz
              rw [lev_cons_cons, if_pos rfl]
              exact (ih u vv hlen).2.2.1 x
            · rw [lev_cons_cons, if_neg hxz]
              have h1 := (ih u vv hlen).2.2.1 z
              have h2 := (ih u vv hlen).2.1 x
              omega
      have A3 : ∀ z : α, lev u (z :: v) ≤ 1 + lev u v := by
        intro z
        cases u with
        | nil =>
            rw [lev_nil_left, lev_nil_left]
            simp only [List.length_cons]
            omega
        | cons x uu =>
            have hlen : uu.length + v.length ≤ n := by
              simp only [List.length_cons] at h; omega
            by_cases hxz : x = z
            · subst hxz
              rw [lev_cons_cons, if_pos rfl]
              exact (ih uu v hlen).2.1 x
            · rw [lev_cons_cons, if_neg hxz]
              omega
      have A4 : ∀ z : α, lev u v ≤ 1 + lev u (z :: v) := by
        intro z
        cases u with
        | nil =>
            rw [lev_nil_left, lev_nil_left]
            simp only [List.length_cons]
            omega
        | cons x uu =>
            have hlen : uu.length + v.length ≤ n := by
              simp only [List.length_cons] at h; omega
            by_cases hxz : x = z
            · subst hxz
              rw [lev_cons_cons, if_pos rfl]
              exact (ih uu v hlen).1 x
            · rw [lev_cons_cons (x := x) (y := z), if_neg hxz]
              have h1 := (ih uu v hlen).1 x
              have h2 := (ih uu v hlen).2.2.2 z
              omega
      exact ⟨A1, A2, A3, A4⟩

theorem lev_cons_left_le [DecidableEq α] (x : α) (u v : List α) :
    lev (x :: u) v ≤ 1 + lev u v :=
  (lev_adj_bounds (u.length + v.length) u v le_rfl).1 x

theorem lev_le_cons_left [DecidableEq α] (x : α) (u v : List α) :
    lev u v ≤ 1 + lev (x :: u) v :=
  (lev_adj_bounds (u.length + v.length) u v le_rfl).2.1 x

theorem lev_cons_right_le [DecidableEq α] (z : α) (u v : List α) :
    lev u (z :: v) ≤ 1 + lev u v :=
  (lev_adj_bounds (u.length + v.length) u v le_rfl).2.2.1 z

theorem lev_le_cons_right [DecidableEq α] (z : α) (u v : List α) :
    lev u v ≤ 1 + lev u (z :: v) :=
  (lev_adj_bounds (u.length + v.length) u v le_rfl).2.2.2 z

theorem lev_sub_left [DecidableEq α] (x y : α) (u : List α) :
    ∀ v : List α, lev (x :: u) v ≤ 1 + lev (y :: u) v := by
  intro v
  induction v with
  | nil =>
      rw [lev_nil_right, lev_nil_right]
      simp only [List.length_cons]
      omega
  | cons z vv ih =>
      by_cases hxz : x = z <;> by_cases hyz : y = z
      · subst hxz; subst hyz
        omega
      · subst hxz
        rw [lev_cons_cons, if_pos rfl, lev_cons_cons (x := y), if_neg hyz]
        have h1 := lev_le_cons_right x u vv
        have h2 := lev_le_cons_left y u vv
        omega
      · subst hyz
        rw [lev_cons_cons, if_neg hxz, lev_cons_cons, if_pos rfl]
        omega
      · rw [lev_cons_cons, if_neg hxz, lev_cons_cons (x := y), if_neg hyz]
        omega

theorem lev_cons_mono [DecidableEq α] {u1 u2 : List α} (w : α)
    (H : ∀ b : List α, lev u1 b ≤ 1 + lev u2 b) :
    ∀ b : List α, lev (w :: u1) b ≤ 1 + lev (w :: u2) b := by
  intro b
  induction b with
  | nil =>
      have h0 := H []
      rw [lev_nil_right] at h0 ⊢
      rw [lev_nil_right] at h0 ⊢
      simp only [List.length_cons]
      omega
  | cons z bb ih =>
      by_cases hwz : w = z
      · subst hwz
        rw [lev_cons_cons, if_pos rfl, lev_cons_cons, if_pos rfl]
        exact H bb
      · rw [lev_cons_cons, if_neg hwz, lev_cons_cons (x := w), if_neg hwz]
        have h1 := H (z :: bb)
        have h2 := H bb
        omega

theorem lev_append_mono [DecidableEq α] {r1 r2 : List α}
    (H : ∀ b : List α, lev r1 b ≤ 1 + lev r2 b) :
    ∀ (l b : List α), lev (l ++ r1) b ≤ 1 + lev (l ++ r2) b := by
  intro l
  induction l with
  | nil => simpa using H
  | cons w ll ih => exact lev_cons_mono w ih

theorem lev_le_of_estep [DecidableEq α] {a1 a2 : List α} (e : Estep a1 a2) (b : List α) :
    lev a1 b ≤ 1 + lev a2 b := by
  cases e with
  | ins l r c => exact lev_append_mono (fun v => lev_le_cons_left c r v) l b
  | del l r c => exact lev_append_mono (fun v => lev_cons_left_le c r v) l b
  | sub l r c d => exact lev_append_mono (fun v => lev_sub_left c d r v) l b

theorem lev_le_editSeq [DecidableEq α] {n : Nat} {a b : List α} (h : EditSeq n a b) :
    lev a b ≤ n := by
  induction h with
  | refl a => simp [lev_self]
  | @step n a m c e _tail ih =>
      have h1 := lev_le_of_estep e c
      omega

theorem lev_isLeast [DecidableEq α] (a b : List α) :
    IsLeast {n | EditSeq n a b} (lev a b) :=
  ⟨editSeq_lev a b, fun _n hn => lev_le_editSeq hn⟩

theorem lev_reverse [DecidableEq α] (a b : List α) :
    lev a.reverse b.reverse = lev a b := by
  apply le_antisymm
  · exact lev_le_editSeq (editSeq_lev a b).rev
  · have h := (editSeq_lev a.reverse b.reverse).rev
    simp only [List.reverse_reverse] at h
    exact lev_le_editSeq h

theorem lev_comm [DecidableEq α] (a b : List α) : lev a b = lev b a := by
  apply le_antisymm
  · exact lev_le_editSeq (editSeq_lev b a).symm
  · exact lev_le_editSeq (editSeq_lev a b).symm

theorem lev_eq_zero_iff [DecidableEq α] {a b : List α} : lev a b = 0 ↔ a = b := by
  constructor
  · intro h
    have h0 := editSeq_lev a b
    rw [h] at h0
    cases h0
    rfl
  · rintro rfl
    exact lev_self a

theorem lev_le_max [DecidableEq α] : ∀ a b : List α, lev a b ≤ max a.length b.length := by
  intro a b
  induction a, b using lev.induct with
  | case1 ys => rw [lev_nil_left]; simp
  | case2 x xs => rw [lev_nil_right]; simp
  | case3 xs y ys ih =>
      rw [lev_cons_cons, if_pos rfl]
      simp only [List.length_cons]
      omega
  | case4 x xs y ys h ih1 ih2 ih3 =>
      rw [lev_cons_cons, if_neg h]
      simp only [List.length_cons] at ih1 ih2 ih3 ⊢
      omega

theorem lev_triangle [DecidableEq α] (a b c : List α) :
    lev a c ≤ lev a b + lev b c :=
  lev_le_editSeq ((editSeq_lev a b).trans (editSeq_lev b c))

theorem drow_headD [DecidableEq α] (ra rrb ts : List α) :
    (drow ra rrb ts).headD 0 = lev ra rrb := by
  cases ts <;> rfl

theorem drow_cons_tail [DecidableEq α] (ra rrb ts : List α) :
    drow ra rrb ts = lev ra rrb :: (drow ra rrb ts).tail := by
  cases ts <;> rfl

theorem rowStep_drow [DecidableEq α] (x : α) (ra : List α) :
    ∀ (ts rrb : List α),
      rowStep x ts (drow ra rrb ts) (lev (x :: ra) rrb) = (drow (x :: ra) rrb ts).tail := by
  intro ts
  induction ts with
  | nil => intro rrb; rfl
  | cons t ts ih =>
      intro rrb
      show rowStep x (t :: ts) (lev ra rrb :: drow ra (t :: rrb) ts) (lev (x :: ra) rrb) = _
      rw [rowStep]
      have hcell : (if x = t then lev ra rrb
          else min ((drow ra (t :: rrb) ts).headD 0 + 1)
            (min (lev (x :: ra) rrb + 1) (lev ra rrb + 1))) = lev (x :: ra) (t :: rrb) := by
        rw [drow_headD, lev_cons_cons]
        by_cases hxt : x = t
        · simp [hxt]
        · simp only [hxt, if_false, if_neg hxt]
          omega
      rw [hcell, ih (t :: rrb), ← drow_cons_tail]
      rfl

theorem outerLoop_drow [DecidableEq α] (s2 : List α) :
    ∀ (cs ra : List α),
      outerLoop s2 cs (ra.length + 1) (drow ra [] s2) = drow (cs.reverse ++ ra) [] s2 := by
  intro cs
  induction cs with
  | nil => intro ra; simp [outerLoop]
  | cons c cc ih =>
      intro ra
      have hlen : lev (c :: ra) [] = ra.length + 1 := by
        rw [lev_nil_right]; rfl
      have hrow : (ra.length + 1) :: rowStep c s2 (drow ra [] s2) (ra.length + 1) =
          drow (c :: ra) [] s2 := by
        conv_rhs => rw [drow_cons_tail]
        rw [hlen, ← hlen, rowStep_drow]
      calc outerLoop s2 (c :: cc) (ra.length + 1) (drow ra [] s2)
          = outerLoop s2 cc (ra.length + 1 + 1)
              ((ra.length + 1) :: rowStep c s2 (drow ra [] s2) (ra.length + 1)) := by
            rw [outerLoop]
        _ = outerLoop s2 cc ((c :: ra).length + 1) (drow (c :: ra) [] s2) := by
            rw [hrow]; rfl
        _ = drow (cc.reverse ++ (c :: ra)) [] s2 := ih (c :: ra)
        _ = drow ((c :: cc).reverse ++ ra) [] s2 := by
            simp [List.reverse_cons, List.append_assoc]

theorem drow_nil_eq_range [DecidableEq α] :
    ∀ (ts rrb : List α), drow ([] : List α) rrb ts = List.range' rrb.length (ts.length + 1) := by
  intro ts
  induction ts with
  | nil =>
      intro rrb
      show [lev ([] : List α) rrb] = List.range' rrb.length 1
      rw [lev_nil_left, List.range'_succ rrb.length 0 1]
      rfl
  | cons t ts ih =>
      intro rrb
      show lev ([] : List α) rrb :: drow [] (t :: rrb) ts = _
      rw [lev_nil_left, ih (t :: rrb)]
      simp only [List.length_cons]
      rw [List.range'_succ rrb.length (ts.length + 1) 1]

theorem drow_getD_last [DecidableEq α] (ra : List α) :
    ∀ (ts rrb : List α), (drow ra rrb ts).getD ts.length 0 = lev ra (ts.reverse ++ rrb) := by
  intro ts
  induction ts with
  | nil => intro rrb; rfl
  | cons t ts ih =>
      intro rrb
      show (lev ra rrb :: drow ra (t :: rrb) ts).getD (ts.length + 1) 0 = _
      rw [List.getD_cons_succ, ih (t :: rrb)]
      simp [List.reverse_cons, List.append_assoc]

theorem levenshtein_impl_eq_lev_rev [DecidableEq α] (a b : List α) :
    levenshtein_impl a b = lev a.reverse b.reverse := by
  unfold levenshtein_impl
  have h0 : List.range (b.length + 1) = drow ([] : List α) [] b := by
    rw [drow_nil_eq_range b [], List.range_eq_range']
    rfl
  rw [h0]
  have h1 := outerLoop_drow b a []
  simp only [List.length_nil, Nat.zero_add, List.append_nil] at h1
  rw [h1, drow_getD_last]
  simp

theorem levenshtein_impl_eq_lev [DecidableEq α] (a b : List α) :
    levenshtein_impl a b = lev a b := by
  rw [levenshtein_impl_eq_lev_rev, lev_reverse]

theorem reverse_take_succ [Inhabited α] (s : List α) (i : Nat) (h : i < s.length) :
    (s.take (i + 1)).reverse = s.getD i default :: (s.take i).reverse := by
  rw [List.take_succ, List.getElem?_eq_getElem h, List.getD_eq_getElem s default h]
  simp

theorem levTable_eq_lev [DecidableEq α] [Inhabited α] (s1 s2 : List α) (i j : Nat) :
    i ≤ s1.length → j ≤ s2.length →
      levTable s1 s2 i j = lev ((s1.take i).reverse) ((s2.take j).reverse) := by
  induction i, j using levTable.induct s1 s2 with
  | case1 j =>
      intro _hi hj
      rw [levTable, List.take_zero, List.reverse_nil, lev_nil_left]
      simp only [List.length_reverse, List.length_take]
      omega
  | case2 i =>
      intro hi _hj
      rw [levTable, List.take_zero, List.reverse_nil, lev_nil_right]
      simp only [List.length_reverse, List.length_take]
      omega
  | case3 i j heq ih =>
      intro hi hj
      rw [levTable, if_pos heq, ih (by omega) (by omega)]
      rw [reverse_take_succ s1 i (by omega), reverse_take_succ s2 j (by omega)]
      rw [lev_cons_cons, if_pos heq]
  | case4 i j hne ih1 ih2 ih3 =>
      intro hi hj
      rw [levTable, if_neg hne]
      rw [reverse_take_succ s1 i (by omega), reverse_take_succ s2 j (by omega)]
      rw [lev_cons_cons, if_neg hne]
      rw [ih1 (by omega) (by omega), ih2 (by omega) (by omega), ih3 (by omega) (by omega)]
      rw [reverse_take_succ s1 i (by omega), reverse_take_succ s2 j (by omega)]

theorem drow_mem_le [DecidableEq α] (ra : List α) :
    ∀ (ts rrb : List α) (m : Nat), m ∈ drow ra rrb ts →
      m ≤ max ra.length (rrb.length + ts.length) := by
  intro ts
  induction ts with
  | nil =>
      intro rrb m hm
      have hmem : m = lev ra rrb := by simpa [drow] using hm
      subst hmem
      have h1 := lev_le_max ra rrb
      simp only [List.length_nil] at *
      omega
  | cons t ts ih =>
      intro rrb m hm
      simp only [drow, List.mem_cons] at hm
      rcases hm with rfl | hm
      · have h1 := lev_le_max ra rrb
        simp only [List.length_cons]
        omega
      · have h1 := ih (t :: rrb) m hm
        simp only [List.length_cons] at h1 ⊢
        omega

theorem rowAfter_eq_drow [DecidableEq α] (a b : List α) (i : Nat) :
    rowAfter a b i = drow ((a.take i).reverse) [] b := by
  unfold rowAfter
  have h0 : List.range (b.length + 1) = drow ([] : List α) [] b := by
    rw [drow_nil_eq_range b [], List.range_eq_range']
    rfl
  rw [h0]
  have h1 := outerLoop_drow b (a.take i) []
  simp only [List.length_nil, Nat.zero_add, List.append_nil] at h1
  exact h1

theorem cstring_append_nul (a r : List Nat) : cstring (a ++ 0 :: r) = cstring a := by
  induction a with
  | nil => rfl
  | cons x a ih =>
      unfold cstring at ih ⊢
      by_cases hx : x = 0
      · subst hx
        rfl
      · simp only [List.cons_append, List.takeWhile_cons]
        have hb : (x != 0) = true := by simpa using hx
        rw [hb]
        simp only [ih]

/-- C1: for every pair of finite character sequences `a` and `b`, the value
computed by the engine (`levenshtein_impl`) is the standard Levenshtein
distance: it is the least `n` such that `a` can be transformed into `b`
by `n` single-character insertions, deletions and substitutions. -/
theorem levenshtein_impl_is_edit_distance [DecidableEq α] (a b : List α) :
    IsLeast {n | EditSeq n a b} (levenshtein_impl a b) := by
  rw [levenshtein_impl_eq_lev]
  exact lev_isLeast a b

/-- C2: the rolling two-row computation of the implementation (previous row
initialised to `[0, 1, ..., len s2]`, `current[0] = i`, the match/mismatch
cell rule, the role swap after each outer iteration, and the final read of
the last entry of the last-computed row) equals the full-table Levenshtein
recurrence `levTable` evaluated at `(len s1, len s2)`. -/
theorem levenshtein_impl_eq_levTable [DecidableEq α] [Inhabited α] (a b : List α) :
    levenshtein_impl a b = levTable a b a.length b.length := by
  rw [levenshtein_impl_eq_lev_rev, levTable_eq_lev a b a.length b.length le_rfl le_rfl]
  simp

/-- C3: the computed distance is `0` exactly when the two sequences are
identical; in particular the distance from any sequence to itself is `0`. -/
theorem levenshtein_impl_eq_zero_iff [DecidableEq α] (a b : List α) :
    (levenshtein_impl a b = 0 ↔ a = b) ∧ levenshtein_impl a a = 0 := by
  rw [levenshtein_impl_eq_lev, levenshtein_impl_eq_lev]
  exact ⟨lev_eq_zero_iff, lev_self a⟩

/-- C4: the computed distance is symmetric in its two arguments. -/
theorem levenshtein_impl_comm [DecidableEq α] (a b : List α) :
    levenshtein_impl a b = levenshtein_impl b a := by
  rw [levenshtein_impl_eq_lev, levenshtein_impl_eq_lev]
  exact lev_comm a b

/-- C5: with an empty input on either side, the computed distance is the
length of the other input (no special-cased branch: this is the same
`levenshtein_impl` loop degenerating). -/
theorem levenshtein_impl_nil [DecidableEq α] (s : List α) :
    levenshtein_impl [] s = s.length ∧ levenshtein_impl s [] = s.length := by
  constructor <;> rw [levenshtein_impl_eq_lev]
  · exact lev_nil_left s
  · exact lev_nil_right s

/-- C6: after `i` outer iterations on inputs `a`, `b` (with `i ≤ len a`),
the row held by the engine has entry `0` equal to the iteration index `i`,
and every entry of the row is nonnegative and at most
`max (len a) (len b)`. -/
theorem rowAfter_invariants [DecidableEq α] (a b : List α) (i : Nat)
    (h : i ≤ a.length) :
    (rowAfter a b i).getD 0 0 = i ∧
      ∀ m ∈ rowAfter a b i, 0 ≤ m ∧ m ≤ max a.length b.length := by
  rw [rowAfter_eq_drow]
  constructor
  · rw [drow_cons_tail, List.getD_cons_zero, lev_nil_right]
    simp only [List.length_reverse, List.length_take]
    omega
  · intro m hm
    refine ⟨Nat.zero_le m, ?_⟩
    have h1 := drow_mem_le ((a.take i).reverse) b [] m hm
    simp only [List.length_reverse, List.length_take, List.length_nil] at h1
    omega

/-- Witness for C6 at `a = [1, 2]`, `b = [1, 3]`, `i = 1`. -/
theorem rowAfter_invariants_witness :
    (1 : Nat) ≤ ([1, 2] : List Nat).length ∧
      ((rowAfter ([1, 2] : List Nat) [1, 3] 1).getD 0 0 = 1 ∧
        ∀ m ∈ rowAfter ([1, 2] : List Nat) [1, 3] 1,
          0 ≤ m ∧ m ≤ max ([1, 2] : List Nat).length ([1, 3] : List Nat).length) :=
  ⟨by decide, rowAfter_invariants [1, 2] [1, 3] 1 (by decide)⟩

/-- C7: the computed distance satisfies the triangle inequality. -/
theorem levenshtein_impl_triangle [DecidableEq α] (a b c : List α) :
    levenshtein_impl a c ≤ levenshtein_impl a b + levenshtein_impl b c := by
  simp only [levenshtein_impl_eq_lev]
  exact lev_triangle a b c

/-- C8: the computation is pure and total: on every pair of finite input
sequences it produces exactly one value, a nonnegative integer. -/
theorem levenshtein_impl_total [DecidableEq α] (a b : List α) :
    ∃! n : Int, (levenshtein_impl a b : Int) = n ∧ 0 ≤ n :=
  ⟨(levenshtein_impl a b : Int),
    ⟨rfl, Int.natCast_nonneg _⟩,
    fun _y hy => hy.1.symm⟩

/-- C9: on raw byte sequences the engine has C-string (`strlen`) semantics:
the result is the least edit-script length between the prefixes of the two
inputs before their first NUL byte, and appending a NUL byte followed by
arbitrary further bytes to either input leaves the result unchanged. -/
theorem levenshtein_c_strlen_semantics (a b : List Nat) :
    IsLeast {n | EditSeq n (cstring a) (cstring b)} (levenshtein_c a b) ∧
      ∀ ar br : List Nat,
        levenshtein_c (a ++ 0 :: ar) (b ++ 0 :: br) = levenshtein_c a b := by
  constructor
  · unfold levenshtein_c
    rw [levenshtein_impl_eq_lev]
    exact lev_isLeast _ _
  · intro ar br
    unfold levenshtein_c
    rw [cstring_append_nul, cstring_append_nul]

/-- C10: the concrete cases from the spec:
`distance "kitten" "sitting" = 3`, `distance "flaw" "lawn" = 2`,
`distance "a" "" = 1` and `distance "a" "b" = 1`. -/
theorem levenshtein_impl_examples :
    levenshtein_impl "kitten".data "sitting".data = 3 ∧
      levenshtein_impl "flaw".data "lawn".data = 2 ∧
      levenshtein_impl "a".data "".data = 1 ∧
      levenshtein_impl "a".data "b".data = 1 := by
  refine ⟨?_, ?_, ?_, ?_⟩ <;> rfl
